import Mathlib

/-!
Verification of the mgrep concurrent substring-search tool (Go).

The repository holds two variants of the same program:
* `main.go` — channel variant: unbuffered `results` channel, driver does a
  blocking read `hits := <-results`.
* the second file (mutex variant) — `results` has capacity 1, the collector
  goroutine holds a mutex while running, and the driver does a non-blocking
  `select` read after acquiring that mutex.

Shared code (identical in both variants): `FoundString`, `check`, the
`String` method, `parseFile`, `parseDir`, and the `errors` channel that no
goroutine ever receives from.

Strings are modelled as `List Char` (Go strings under `strings.Split` /
`strings.Contains`, which operate on the textual content).
-/

/-- One matching line, from `type FoundString struct` in the source:
`path` is the file path, `index` the 0-based line index produced by
`range` over `strings.Split`, `line` the full line text. -/
structure FoundString where
  path : List Char
  index : Nat
  line : List Char
deriving DecidableEq, Repr

/-- Go `strings.Split(content, "\n")`: splits around every newline;
the empty string yields one empty field, matching Go's behaviour. -/
def splitLines : List Char → List (List Char)
  | [] => [[]]
  | c :: cs =>
    if c = '\n' then [] :: splitLines cs
    else
      match splitLines cs with
      | [] => [[c]]
      | l :: ls => (c :: l) :: ls

/-- Go `strings.Contains(s, sub)`: true iff `sub` occurs as a contiguous
substring of `s`.  Implemented as the usual scan over suffixes. -/
def goContains (sub : List Char) : List Char → Bool
  | [] => sub.isPrefixOf []
  | c :: rest => sub.isPrefixOf (c :: rest) || goContains sub rest

/-- The pure part of `parseFile`: split the content on newlines and emit a
`FoundString` for every (index, line) pair whose line contains the search
string.  This is the exact loop body
`for index, line := range lines { if strings.Contains(line, searchString) ... }`. -/
def parseFileEmits (path : List Char) (content : List Char) (searchString : List Char) :
    List FoundString :=
  ((splitLines content).enum.filter fun il => goContains searchString il.2).map
    fun il => ⟨path, il.1, il.2⟩

/-- The `String` method on `FoundString`:
`"Hit found in file " + path + "\n" + Sprintf("Line %v: \n", index) + line + "\n"`. -/
def foundStringRender (fs : FoundString) : List Char :=
  ("Hit found in file ").toList ++ fs.path ++ ['\n'] ++
    ("Line ").toList ++ (Nat.repr fs.index).toList ++ (": ").toList ++ ['\n'] ++
    fs.line ++ ['\n']

/-- The accumulation loop of `collectStrings`: starting from the empty
slice, append each received value in arrival order
(`list = append(list, value)`). -/
def collectStrings (arrivals : List FoundString) : List FoundString :=
  arrivals.foldl (fun list value => list ++ [value]) []

/-- The publication step of `collectStrings`: the final list is sent on the
`results` channel only when it is non-empty (`if len(list) > 0`). -/
def collectorPublish (list : List FoundString) : Option (List FoundString) :=
  if list.isEmpty then none else some list

/-- Inverse of line splitting: join fields with a newline between them. -/
def joinLines : List (List Char) → List Char
  | [] => []
  | [l] => l
  | l :: l2 :: ls => l ++ '\n' :: joinLines (l2 :: ls)

/-- The Go runtime diagnostic produced when `os.Args[1]` or `os.Args[2]`
is accessed with too few arguments. -/
def goPanicMsg : List Char := ("panic: runtime error: index out of range").toList

/-- Exit status of a Go program that dies from a runtime panic. -/
def goPanicExitCode : Nat := 2

/-- The argument phase of `main`:
`searchString := os.Args[1]; searchDir := os.Args[2]`.  `args` is the full
`os.Args` list (program name first).  An out-of-bounds access is a runtime
panic, modelled as `Except.error` carrying the runtime message; the program
prints no other text on that path (the source contains no usage string). -/
def argPhase (args : List (List Char)) : Except (List Char) (List Char × List Char) :=
  match args.get? 1 with
  | none => .error goPanicMsg
  | some s =>
    match args.get? 2 with
    | none => .error goPanicMsg
    | some d => .ok (s, d)

/-- Driver pipeline at the level of observable results: the argument phase
runs before anything else; only on success does the scan run and the
collector publish.  `emitted` is the arrival sequence at the collector. -/
def mgrepRun (args : List (List Char)) (emitted : List FoundString) :
    Except (List Char) (Option (List FoundString)) :=
  match argPhase args with
  | .error m => .error m
  | .ok _ => .ok (collectorPublish (collectStrings emitted))

-- Basic characterization lemmas for the line scanner.

theorem goContains_true_iff (sub l : List Char) :
    goContains sub l = true ↔ sub <:+: l := by
  induction l with
  | nil =>
    simp [goContains, List.infix_iff_prefix_suffix]
  | cons c rest ih =>
    simp only [goContains, Bool.or_eq_true, List.isPrefixOf_iff_prefix, ih,
      List.infix_cons_iff]

theorem splitLines_ne_nil (content : List Char) : splitLines content ≠ [] := by
  induction content with
  | nil => simp [splitLines]
  | cons c cs ih =>
    simp only [splitLines]
    split
    · simp
    · split
      · simp
      · simp

theorem splitLines_no_newline (content : List Char) :
    ∀ l ∈ splitLines content, '\n' ∉ l := by
  induction content with
  | nil => intro l hl; simp [splitLines] at hl; simp [hl]
  | cons c cs ih =>
    intro l hl
    simp only [splitLines] at hl
    by_cases hc : c = '\n'
    · simp [hc] at hl
      rcases hl with h | h
      · simp [h]
      · exact ih l h
    · simp [hc] at hl
      rcases h : splitLines cs with _ | ⟨l0, ls⟩
      · exact absurd h (splitLines_ne_nil cs)
      · rw [h] at hl
        simp at hl
        rcases hl with h1 | h1
        · subst h1
          intro hmem
          rcases List.mem_cons.mp hmem with h2 | h2
          · exact hc h2.symm
          · exact ih l0 (by rw [h]; exact List.mem_cons_self _ _) h2
        · exact ih l (by rw [h]; exact List.mem_cons_of_mem _ h1)

theorem joinLines_splitLines (content : List Char) :
    joinLines (splitLines content) = content := by
  induction content with
  | nil => simp [splitLines, joinLines]
  | cons c cs ih =>
    rcases h : splitLines cs with _ | ⟨l0, ls⟩
    · exact absurd h (splitLines_ne_nil cs)
    · rw [h] at ih
      by_cases hc : c = '\n'
      · subst hc
        simp only [splitLines, if_pos rfl, h, joinLines]
        simp [ih]
      · simp only [splitLines, if_neg hc, h]
        cases ls with
        | nil =>
          simp [joinLines] at ih ⊢
          simp [ih]
        | cons l1 ls' =>
          simp only [joinLines] at ih ⊢
          rw [List.cons_append, ih]

theorem mem_parseFileEmits (path content searchString : List Char) (i : Nat) (t : List Char) :
    FoundString.mk path i t ∈ parseFileEmits path content searchString ↔
      (splitLines content)[i]? = some t ∧ searchString <:+: t := by
  simp only [parseFileEmits, List.mem_map, List.mem_filter]
  constructor
  · rintro ⟨⟨j, u⟩, ⟨hmem, hcont⟩, heq⟩
    cases heq
    exact ⟨List.mem_enum_iff_getElem?.mp hmem, (goContains_true_iff _ _).mp hcont⟩
  · rintro ⟨hget, hinf⟩
    exact ⟨(i, t), ⟨List.mem_enum_iff_getElem?.mpr hget,
      (goContains_true_iff _ _).mpr hinf⟩, rfl⟩

theorem parseFileEmits_index_sorted (path content searchString : List Char) :
    List.Pairwise (fun a b => a.index < b.index)
      (parseFileEmits path content searchString) := by
  unfold parseFileEmits
  apply List.pairwise_map.mpr
  apply List.Pairwise.filter
  have h1 : List.Pairwise (· < ·) ((splitLines content).enum.map Prod.fst) := by
    rw [List.enum_map_fst]
    exact List.pairwise_lt_range _
  exact List.pairwise_map.mp h1

theorem parseFileEmits_empty_file (path searchString : List Char)
    (hs : searchString ≠ []) : parseFileEmits path [] searchString = [] := by
  have hc : goContains searchString [] = false := by
    rw [Bool.eq_false_iff]
    intro h
    exact hs (List.infix_nil.mp ((goContains_true_iff _ _).mp h))
  have henum : (splitLines []).enum = [(0, ([] : List Char))] := rfl
  simp [parseFileEmits, henum, hc]

/-- C6: for every file content and non-empty search string, the scanner
splits the content on the single separator newline (the fields join back to
the content and contain no newline), returns exactly the (index, text)
pairs of the lines containing the search string as a literal infix, keeps
the original order (strictly increasing indices), and returns the empty
result for an empty file. -/
theorem c6_line_scanner_contract (path content searchString : List Char)
    (hs : searchString ≠ []) :
    (joinLines (splitLines content) = content ∧
      ∀ l ∈ splitLines content, '\n' ∉ l) ∧
    (∀ i t, FoundString.mk path i t ∈ parseFileEmits path content searchString ↔
      ((splitLines content)[i]? = some t ∧ searchString <:+: t)) ∧
    List.Pairwise (fun a b => a.index < b.index)
      (parseFileEmits path content searchString) ∧
    (content = [] → parseFileEmits path content searchString = []) := by
  refine ⟨⟨joinLines_splitLines content, splitLines_no_newline content⟩,
    fun i t => mem_parseFileEmits path content searchString i t,
    parseFileEmits_index_sorted path content searchString,
    fun hc => ?_⟩
  subst hc
  exact parseFileEmits_empty_file path searchString hs

theorem c6_line_scanner_contract_witness :
    (['c'] : List Char) ≠ [] ∧
    ((joinLines (splitLines ['a', 'b']) = ['a', 'b'] ∧
      ∀ l ∈ splitLines ['a', 'b'], '\n' ∉ l) ∧
    (∀ i t, FoundString.mk ['p'] i t ∈ parseFileEmits ['p'] ['a', 'b'] ['c'] ↔
      ((splitLines ['a', 'b'])[i]? = some t ∧ ['c'] <:+: t)) ∧
    List.Pairwise (fun a b => a.index < b.index)
      (parseFileEmits ['p'] ['a', 'b'] ['c']) ∧
    (['a', 'b'] = ([] : List Char) → parseFileEmits ['p'] ['a', 'b'] ['c'] = [])) :=
  ⟨by decide, c6_line_scanner_contract ['p'] ['a', 'b'] ['c'] (by decide)⟩

/-- The file of Scenario 1 in the spec. -/
def scenarioOnePath : List Char := ("a.txt").toList

/-- Content of Scenario 1: three lines, the first and third contain hello. -/
def scenarioOneContent : List Char := ("hello\nworld\nhello again").toList

/-- Search string of Scenario 1. -/
def scenarioOneSearch : List Char := ("hello").toList

/-- C7 counterexample: on Scenario 1 the scanner emits indices 0 and 2
(0-based, straight from range over the split), not 1 and 3, and the
printed blocks read Line 0 and Line 2 — the rendered text of the first
match does not contain Line 1, nor does the second contain Line 3. -/
theorem c7_counterexample_line_numbers :
    (parseFileEmits scenarioOnePath scenarioOneContent scenarioOneSearch).map
      FoundString.index = [0, 2] ∧
    ([0, 2] : List Nat) ≠ [1, 3] ∧
    goContains (("Line 1").toList)
      (foundStringRender ⟨scenarioOnePath, 0, ("hello").toList⟩) = false ∧
    goContains (("Line 3").toList)
      (foundStringRender ⟨scenarioOnePath, 2, ("hello again").toList⟩) = false := by
  decide

/-- C7 amended: Scenario 1 yields exactly two matches, for the first and
third lines, carrying 0-based indices 0 and 2, rendered with the texts
Line 0 and Line 2. -/
theorem c7_scenario_one_zero_based :
    parseFileEmits scenarioOnePath scenarioOneContent scenarioOneSearch =
      [⟨scenarioOnePath, 0, ("hello").toList⟩,
       ⟨scenarioOnePath, 2, ("hello again").toList⟩] ∧
    foundStringRender ⟨scenarioOnePath, 0, ("hello").toList⟩ =
      ("Hit found in file a.txt\nLine 0: \nhello\n").toList ∧
    foundStringRender ⟨scenarioOnePath, 2, ("hello again").toList⟩ =
      ("Hit found in file a.txt\nLine 2: \nhello again\n").toList := by
  decide

/-- C10: with an empty search string, strings.Contains is true on every
line, so parseFile emits every line of the file; and the argument phase
accepts an empty first argument unchanged — no validation rejects it. -/
theorem c10_empty_search_matches_every_line (path content d : List Char) :
    parseFileEmits path content [] =
      (splitLines content).enum.map (fun il => ⟨path, il.1, il.2⟩) ∧
    argPhase [("mgrep").toList, [], d] = .ok ([], d) := by
  constructor
  · unfold parseFileEmits
    congr 1
    apply List.filter_eq_self.mpr
    intro a _
    exact (goContains_true_iff [] a.2).mpr List.nil_infix
  · rfl

theorem argPhase_short (args : List (List Char)) (h : args.length < 3) :
    argPhase args = .error goPanicMsg := by
  have h2 : args.get? 2 = none := List.get?_eq_none.mpr (by omega)
  unfold argPhase
  cases h1 : args.get? 1 with
  | none => rfl
  | some s => rw [h2]

/-- C5 counterexample: with the required arguments missing, the failure
diagnostic is the Go runtime index-out-of-range panic, which contains no
usage text — neither the word usage nor the documented invocation
argument names appear in it. -/
theorem c5_counterexample_no_usage :
    argPhase [("mgrep").toList] = .error goPanicMsg ∧
    goContains (("usage").toList) goPanicMsg = false ∧
    goContains (("Usage").toList) goPanicMsg = false ∧
    goContains (("search_string").toList) goPanicMsg = false :=
  ⟨rfl, by decide, by decide, by decide⟩

/-- C5 amended: if either required argument is missing, the program
terminates with a non-zero status (exit code 2, from the runtime
index-out-of-range panic) before any traversal begins — the observable
result is the panic for every possible scan outcome — but it prints no
usage message. -/
theorem c5_missing_args_panic (args : List (List Char)) (h : args.length < 3) :
    (∀ emitted, mgrepRun args emitted = Except.error goPanicMsg) ∧
    goPanicExitCode ≠ 0 := by
  refine ⟨fun emitted => ?_, by decide⟩
  unfold mgrepRun
  rw [argPhase_short args h]

theorem c5_missing_args_panic_witness :
    ([("mgrep").toList].length < 3) ∧
    ((∀ emitted, mgrepRun [("mgrep").toList] emitted = Except.error goPanicMsg) ∧
      goPanicExitCode ≠ 0) :=
  ⟨by decide, c5_missing_args_panic [("mgrep").toList] (by decide)⟩

/-- Multiplicity of a match in a list. -/
def countFS (m : FoundString) (l : List FoundString) : Nat :=
  l.countP fun x => decide (x = m)

/-- Arrival sequences at the collector: an interleaving of the per-task
emission streams.  Each step removes the head of any one stream (chosen by
first permuting the streams); the unbuffered found channel delivers each
sent value exactly once, in some scheduler-dependent global order, which is
exactly the set of sequences derivable here. -/
inductive Interleaving : List (List FoundString) → List FoundString → Prop
  | nil : Interleaving [] []
  | consEmpty {ss ρ} : Interleaving ss ρ → Interleaving ([] :: ss) ρ
  | consTake {rest ss ρ a} : Interleaving (rest :: ss) ρ →
      Interleaving ((a :: rest) :: ss) (a :: ρ)
  | shuffle {ss ss2 ρ} : ss.Perm ss2 → Interleaving ss2 ρ → Interleaving ss ρ

theorem interleaving_count {ss : List (List FoundString)} {ρ : List FoundString}
    (h : Interleaving ss ρ) (m : FoundString) :
    countFS m ρ = (ss.map (countFS m)).sum := by
  induction h with
  | nil => rfl
  | consEmpty h ih => simpa [countFS] using ih
  | consTake h ih =>
    simp only [countFS, List.map_cons, List.sum_cons, List.countP_cons] at ih ⊢
    omega
  | shuffle hp h ih =>
    rw [ih]
    exact ((hp.map (countFS m)).sum_eq).symm

theorem collectStrings_eq_arrivals (arrivals : List FoundString) :
    collectStrings arrivals = arrivals := by
  have general : ∀ (acc l : List FoundString),
      l.foldl (fun list value => list ++ [value]) acc = acc ++ l := by
    intro acc l
    induction l generalizing acc with
    | nil => simp
    | cons a t ih => simp [List.foldl_cons, ih]
  simpa using general [] arrivals

/-- C1: whatever interleaving the scheduler produces for the File Tasks'
emission streams, the collector's accumulated list holds every emitted
Match with exactly its emitted multiplicity — none lost, none duplicated —
and whenever anything was emitted the collector publishes that full list. -/
theorem c1_collector_exactly_once (files : List (List Char × List Char))
    (searchString : List Char) (streams : List (List FoundString))
    (ρ : List FoundString)
    (_hstreams : streams = files.map fun f => parseFileEmits f.1 f.2 searchString)
    (h : Interleaving streams ρ) :
    (∀ m : FoundString,
      countFS m (collectStrings ρ) = (streams.map (countFS m)).sum) ∧
    (ρ ≠ [] → collectorPublish (collectStrings ρ) = some (collectStrings ρ)) := by
  refine ⟨fun m => ?_, fun hne => ?_⟩
  · rw [collectStrings_eq_arrivals]
    exact interleaving_count h m
  · rw [collectStrings_eq_arrivals]
    simp [collectorPublish, List.isEmpty_iff, hne]

/-- A one-file, one-match instance used to instantiate the fan-in theorems. -/
def wMatch : FoundString := ⟨("w.txt").toList, 0, ("ha").toList⟩

theorem c1_collector_exactly_once_witness :
    (∀ m : FoundString,
      countFS m (collectStrings [wMatch]) = (([[wMatch]]).map (countFS m)).sum) ∧
    ([wMatch] ≠ ([] : List FoundString) →
      collectorPublish (collectStrings [wMatch]) = some (collectStrings [wMatch])) :=
  c1_collector_exactly_once [((("w.txt").toList), (("ha").toList))] (("h").toList)
    [[wMatch]] [wMatch] (by decide) (.consTake (.consEmpty .nil))

namespace Mx

/-- Driver control points in the mutex variant of main: spawning plus
wg.Wait, then close(found), then resultsLock.Lock(), then the
non-blocking select, then done. -/
inductive DPc
  | run
  | closing
  | lockAcq
  | sel
  | finished
deriving DecidableEq

/-- Collector control points: before lock.Lock(), the receive loop (lock
held), after the break (the conditional send on results), the deferred
Unlock, and return. -/
inductive CPc
  | start
  | loop
  | pub
  | unlock
  | finished
deriving DecidableEq

/-- Holder of resultsLock. -/
inductive Owner
  | free
  | coll
  | drv
deriving DecidableEq

/-- Global state of the mutex variant.  `pending` is the sequence of
matches still to be delivered on the unbuffered found channel (a send
completes exactly when the collector receives it, so wg.Wait returning
means `pending = []`); `clist` is the collector's slice; `buf` the content
of the capacity-1 results channel; `observed` is what the driver's select
saw (`some none` = the default branch fired); `everCLock` records whether
the collector has ever taken the lock. -/
structure Cfg where
  dpc : DPc
  cpc : CPc
  pending : List FoundString
  clist : List FoundString
  closedFound : Bool
  owner : Owner
  buf : Option (List FoundString)
  observed : Option (Option (List FoundString))
  everCLock : Bool

/-- Interleaved small-step semantics of the mutex variant, one constructor
per atomic action of the collector goroutine or the driver. -/
inductive Step : Cfg → Cfg → Prop
  | cAcq (s : Cfg) (h1 : s.cpc = .start) (h2 : s.owner = .free) :
      Step s {s with cpc := .loop, owner := .coll, everCLock := true}
  | cRecv (s : Cfg) (v : FoundString) (rest : List FoundString)
      (h1 : s.cpc = .loop) (h2 : s.pending = v :: rest) :
      Step s {s with clist := s.clist ++ [v], pending := rest}
  | cExit (s : Cfg) (h1 : s.cpc = .loop) (h2 : s.closedFound = true)
      (h3 : s.pending = []) : Step s {s with cpc := .pub}
  | cPub (s : Cfg) (h1 : s.cpc = .pub) :
      Step s {s with cpc := .unlock, buf := if s.clist.isEmpty then s.buf else some s.clist}
  | cUnl (s : Cfg) (h1 : s.cpc = .unlock) :
      Step s {s with cpc := .finished, owner := .free}
  | dWait (s : Cfg) (h1 : s.dpc = .run) (h2 : s.pending = []) :
      Step s {s with dpc := .closing}
  | dClose (s : Cfg) (h1 : s.dpc = .closing) :
      Step s {s with dpc := .lockAcq, closedFound := true}
  | dAcq (s : Cfg) (h1 : s.dpc = .lockAcq) (h2 : s.owner = .free) :
      Step s {s with dpc := .sel, owner := .drv}
  | dSel (s : Cfg) (h1 : s.dpc = .sel) :
      Step s {s with dpc := .finished, observed := some s.buf, buf := none}

/-- Initial state: driver about to spawn everything, collector not yet
scheduled, `ms` the full emission sequence of the scan. -/
def init (ms : List FoundString) : Cfg :=
  ⟨.run, .start, ms, [], false, .free, none, none, false⟩

/-- Reachability from the initial state. -/
def Reach (ms : List FoundString) (s : Cfg) : Prop :=
  Relation.ReflTransGen Step (init ms) s

/-- Inductive invariant of the mutex variant. -/
structure Inv (ms : List FoundString) (s : Cfg) : Prop where
  j1 : s.clist ++ s.pending = ms
  j2 : s.cpc = .start → s.clist = [] ∧ s.everCLock = false ∧ s.buf = none
  j3 : s.cpc ≠ .start → s.everCLock = true
  j4 : s.owner = .coll ↔ (s.cpc = .loop ∨ s.cpc = .pub ∨ s.cpc = .unlock)
  j5 : s.closedFound = true ↔
        (s.dpc = .lockAcq ∨ s.dpc = .sel ∨ s.dpc = .finished)
  j6 : s.dpc ≠ .run → s.pending = []
  j7 : (s.cpc = .pub ∨ s.cpc = .unlock ∨ s.cpc = .finished) →
        s.pending = [] ∧ s.closedFound = true
  j8 : (s.cpc = .loop ∨ s.cpc = .pub) → s.buf = none
  j9 : (s.cpc = .unlock ∨ s.cpc = .finished) → s.observed = none →
        s.buf = collectorPublish s.clist
  j10 : ∀ r, s.observed = some r →
        s.dpc = .finished ∧ r = collectorPublish s.clist
  j11 : s.owner = .drv → (s.dpc = .sel ∨ s.dpc = .finished)
  j12 : (s.dpc = .sel ∨ s.dpc = .finished) → s.owner = .drv
  j13 : s.owner = .drv → (s.cpc = .start ∨ s.cpc = .finished)

theorem inv_init (ms : List FoundString) : Inv ms (init ms) := by
  constructor <;> simp [init]

theorem inv_step {ms : List FoundString} {s s2 : Cfg}
    (hs : Step s s2) (h : Inv ms s) : Inv ms s2 := by
  obtain ⟨j1, j2, j3, j4, j5, j6, j7, j8, j9, j10, j11, j12, j13⟩ := h
  cases hs with
  | cAcq h1 h2 =>
    refine ⟨j1, (fun h => (nomatch h)), (fun _ => rfl), (by simp), j5, j6,
      (by simp), (fun _ => (j2 h1).2.2), (by rintro (h | h) <;> cases h),
      j10, (fun h => (nomatch h)),
      (fun h => (nomatch h2.symm.trans (j12 h))), (fun h => (nomatch h))⟩
  | cRecv v rest h1 h2 =>
    refine ⟨?_, (fun h => (nomatch h1.symm.trans h)), j3, j4, j5,
      (fun hd => absurd (j6 hd) (by simp [h2])),
      (fun h => absurd h (by simp [h1])), j8,
      (fun h => absurd h (by simp [h1])),
      (fun r hr => absurd (j6 (by simp [(j10 r hr).1])) (by simp [h2])),
      j11, j12, j13⟩
    rw [List.append_assoc, List.singleton_append, ← h2]
    exact j1
  | cExit h1 h2 h3 =>
    refine ⟨j1, (fun h => (nomatch h)), (fun _ => j3 (by simp [h1])),
      (by simp [j4, h1]), j5, j6, (fun _ => ⟨h3, h2⟩),
      (fun _ => j8 (Or.inl h1)), (by rintro (h | h) <;> cases h), j10, j11,
      j12, (fun h => absurd (j13 h) (by simp [h1]))⟩
  | cPub h1 =>
    refine ⟨j1, (fun h => (nomatch h)), (fun _ => j3 (by simp [h1])),
      (by simp [j4, h1]), j5, j6, (fun _ => j7 (Or.inl h1)),
      (by rintro (h | h) <;> cases h),
      (fun _ _ => by rw [j8 (Or.inr h1)]; rfl), j10, j11, j12,
      (fun h => absurd (j13 h) (by simp [h1]))⟩
  | cUnl h1 =>
    refine ⟨j1, (fun h => (nomatch h)), (fun _ => j3 (by simp [h1])),
      (by simp), j5, j6, (fun _ => j7 (Or.inr (Or.inl h1))),
      (by rintro (h | h) <;> cases h), (fun _ => j9 (Or.inl h1)), j10,
      (fun h => (nomatch h)),
      (fun h => (nomatch (j12 h).symm.trans (j4.mpr (Or.inr (Or.inr h1))))),
      (fun h => (nomatch h))⟩
  | dWait h1 h2 =>
    refine ⟨j1, j2, j3, j4, ?_, (fun _ => h2), j7, j8, j9, ?_, ?_,
      (by simp), j13⟩
    · simp only [h1] at j5
      simpa using j5
    · exact fun r hr => absurd (j10 r hr).1 (by simp [h1])
    · exact fun hd => absurd (j11 hd) (by simp [h1])
  | dClose h1 =>
    refine ⟨j1, j2, j3, j4, (by simp), (fun _ => j6 (by simp [h1])),
      (fun h => ⟨(j7 h).1, rfl⟩), j8, j9,
      (fun r hr => absurd (j10 r hr).1 (by simp [h1])),
      (fun h => absurd (j11 h) (by simp [h1])),
      (by rintro (h | h) <;> cases h), j13⟩
  | dAcq h1 h2 =>
    refine ⟨j1, j2, j3,
      (Iff.intro (fun h => (nomatch h))
        (fun h => (nomatch h2.symm.trans (j4.mpr h)))),
      (by simp [j5.mpr (Or.inl h1)]), (fun _ => j6 (by simp [h1])), j7, j8,
      j9, (fun r hr => absurd (j10 r hr).1 (by simp [h1])),
      (fun _ => Or.inl rfl), (fun _ => rfl), (fun _ => ?_)⟩
    cases hc : s.cpc
    case start => exact Or.inl rfl
    case finished => exact Or.inr rfl
    all_goals exact (nomatch h2.symm.trans (j4.mpr (by simp [hc])))
  | dSel h1 =>
    refine ⟨j1, (fun h => ⟨(j2 h).1, (j2 h).2.1, rfl⟩), j3, j4,
      (by simp [j5.mpr (Or.inr (Or.inl h1))]), (fun _ => j6 (by simp [h1])),
      j7, (fun _ => rfl), (fun _ hobs => (nomatch hobs)), ?_,
      (fun _ => Or.inr rfl), (fun _ => j12 (Or.inl h1)), j13⟩
    intro r hr
    injection hr with hr2
    subst hr2
    refine ⟨rfl, ?_⟩
    rcases j13 (j12 (Or.inl h1)) with hc | hc
    · rw [(j2 hc).2.2, (j2 hc).1]
      rfl
    · have hobs : s.observed = none := by
        cases ho : s.observed with
        | none => rfl
        | some r0 => exact absurd (j10 r0 ho).1 (by simp [h1])
      exact j9 (Or.inr hc) hobs

theorem reach_inv {ms : List FoundString} {s : Cfg} (h : Reach ms s) :
    Inv ms s := by
  induction h with
  | refl => exact inv_init ms
  | tail _ hstep ih => exact inv_step hstep ih

end Mx

/-- C2 counterexample: with zero matches the driver can pass wg.Wait,
close the channel and acquire resultsLock before the collector goroutine
was ever scheduled, refuting the claim that the driver's lock acquisition
after closing the match channel always happens after the collector has
taken the lock.  The final configuration is reachable, has the driver
holding the lock, and everCLock is still false. -/
theorem c2_counterexample_driver_locks_first :
    Mx.Reach [] ⟨.sel, .start, [], [], true, .drv, none, none, false⟩ ∧
    (Mx.Cfg.mk .sel .start [] [] true .drv none none false).owner = .drv ∧
    (Mx.Cfg.mk .sel .start [] [] true .drv none none false).everCLock
      = false := by
  refine ⟨?_, rfl, rfl⟩
  exact Relation.ReflTransGen.head (Mx.Step.dWait _ rfl rfl)
    (Relation.ReflTransGen.head (Mx.Step.dClose _ rfl)
      (Relation.ReflTransGen.head (Mx.Step.dAcq _ rfl rfl)
        Relation.ReflTransGen.refl))

/-- C2 amended: the collector drops no match sent before finalization and
the driver never reads a partial result.  Whenever at least one match was
emitted, the driver can hold resultsLock only after the collector has
taken the lock (everCLock) and finished; and whatever run the select
observes, it observes exactly the full emission sequence. -/
theorem c2_mutex_handoff (ms : List FoundString) (s : Mx.Cfg)
    (h : Mx.Reach ms s) (hne : ms ≠ []) :
    (s.owner = .drv → s.everCLock = true ∧ s.cpc = .finished) ∧
    (∀ r, s.observed = some r → r = some ms) := by
  obtain ⟨j1, j2, j3, j4, j5, j6, j7, j8, j9, j10, j11, j12, j13⟩ :=
    Mx.reach_inv h
  have key : s.owner = .drv → s.cpc = .finished := by
    intro hdrv
    rcases j13 hdrv with hc | hc
    · exfalso
      have hpend : s.pending = [] := by
        apply j6
        rcases j11 hdrv with hd | hd <;> simp [hd]
      apply hne
      rw [← j1, (j2 hc).1, hpend]
      rfl
    · exact hc
  refine ⟨fun hdrv => ⟨j3 (by simp [key hdrv]), key hdrv⟩, ?_⟩
  intro r hr
  obtain ⟨hdf, hrv⟩ := j10 r hr
  have hpend : s.pending = [] := j6 (by simp [hdf])
  have hclist : s.clist = ms := by rw [← j1, hpend]; simp
  rw [hrv, hclist]
  simp [collectorPublish, List.isEmpty_iff, hne]

/-- Final configuration of a complete run of the mutex variant on the
single-match emission sequence. -/
def mxFinalCfg : Mx.Cfg :=
  ⟨.finished, .finished, [], [wMatch], true, .drv, none,
    some (some [wMatch]), true⟩

/-- A complete schedule on one match: collector locks, receives, driver
waits and closes, collector exits its loop, publishes, unlocks, driver
locks and reads. -/
theorem mxRun_one : Mx.Reach [wMatch] mxFinalCfg :=
  Relation.ReflTransGen.head (Mx.Step.cAcq _ rfl rfl)
    (Relation.ReflTransGen.head (Mx.Step.cRecv _ wMatch [] rfl rfl)
      (Relation.ReflTransGen.head (Mx.Step.dWait _ rfl rfl)
        (Relation.ReflTransGen.head (Mx.Step.dClose _ rfl)
          (Relation.ReflTransGen.head (Mx.Step.cExit _ rfl rfl rfl)
            (Relation.ReflTransGen.head (Mx.Step.cPub _ rfl)
              (Relation.ReflTransGen.head (Mx.Step.cUnl _ rfl)
                (Relation.ReflTransGen.head (Mx.Step.dAcq _ rfl rfl)
                  (Relation.ReflTransGen.head (Mx.Step.dSel _ rfl)
                    Relation.ReflTransGen.refl))))))))

theorem c2_mutex_handoff_witness :
    ([wMatch] : List FoundString) ≠ [] ∧
    ((mxFinalCfg.owner = .drv →
        mxFinalCfg.everCLock = true ∧ mxFinalCfg.cpc = .finished) ∧
      (∀ r, mxFinalCfg.observed = some r → r = some [wMatch])) :=
  ⟨List.cons_ne_nil _ _,
    c2_mutex_handoff [wMatch] mxFinalCfg mxRun_one (List.cons_ne_nil _ _)⟩

namespace Ch

/-- Driver control points in the channel variant of main: wg.Wait, then
close(found), then the blocking read from results, then printing/exit. -/
inductive DPc
  | run
  | closing
  | recv
  | finished
deriving DecidableEq

/-- Collector control points in the channel variant: the receive loop,
after the break (the conditional send on the unbuffered results channel),
and return. -/
inductive CPc
  | loop
  | pub
  | finished
deriving DecidableEq

/-- Global state of the channel variant.  `results` is unbuffered, so the
collector's send and the driver's receive are a single rendezvous
transition; `observed` is the list the driver received, if any. -/
structure Cfg where
  dpc : DPc
  cpc : CPc
  pending : List FoundString
  clist : List FoundString
  closedFound : Bool
  observed : Option (List FoundString)

/-- Small-step semantics of the channel variant. -/
inductive Step : Cfg → Cfg → Prop
  | cRecv (s : Cfg) (v : FoundString) (rest : List FoundString)
      (h1 : s.cpc = .loop) (h2 : s.pending = v :: rest) :
      Step s {s with clist := s.clist ++ [v], pending := rest}
  | cExit (s : Cfg) (h1 : s.cpc = .loop) (h2 : s.closedFound = true)
      (h3 : s.pending = []) : Step s {s with cpc := .pub}
  | cSkip (s : Cfg) (h1 : s.cpc = .pub) (h2 : s.clist = []) :
      Step s {s with cpc := .finished}
  | sync (s : Cfg) (h1 : s.cpc = .pub) (h2 : s.clist ≠ [])
      (h3 : s.dpc = .recv) :
      Step s {s with cpc := .finished, dpc := .finished, observed := some s.clist}
  | dWait (s : Cfg) (h1 : s.dpc = .run) (h2 : s.pending = []) :
      Step s {s with dpc := .closing}
  | dClose (s : Cfg) (h1 : s.dpc = .closing) :
      Step s {s with dpc := .recv, closedFound := true}

/-- Initial state of the channel variant on emission sequence `ms`. -/
def init (ms : List FoundString) : Cfg := ⟨.run, .loop, ms, [], false, none⟩

/-- Reachability from the initial state. -/
def Reach (ms : List FoundString) (s : Cfg) : Prop :=
  Relation.ReflTransGen Step (init ms) s

theorem inv_zero {s : Cfg} (h : Reach [] s) :
    s.pending = [] ∧ s.clist = [] ∧ s.dpc ≠ DPc.finished := by
  induction h with
  | refl => exact ⟨rfl, rfl, by simp [init]⟩
  | tail _ hstep ih =>
    obtain ⟨hp, hc, hd⟩ := ih
    cases hstep with
    | cRecv v rest h1 h2 =>
      rw [hp] at h2
      cases h2
    | cExit h1 h2 h3 => exact ⟨hp, hc, hd⟩
    | cSkip h1 h2 => exact ⟨hp, hc, hd⟩
    | sync h1 h2 h3 => exact absurd hc h2
    | dWait h1 h2 => exact ⟨hp, hc, by simp⟩
    | dClose h1 => exact ⟨hp, hc, by simp⟩

end Ch

/-- C4 (the channel variant violates the claim): on any run with zero
matches the collector never sends on results (len(list) is 0), so the
driver's blocking read never completes: no reachable state has the driver
past the read.  The mutex variant by contrast reaches its final state with
observed = some none (the select took the default branch, printing
nothing), as the appended run shows. -/
theorem c4_zero_matches_channel_variant_stuck (s : Ch.Cfg)
    (h : Ch.Reach [] s) :
    s.dpc ≠ Ch.DPc.finished ∧
    Mx.Reach []
      ⟨.finished, .finished, [], [], true, .drv, none, some none, true⟩ := by
  refine ⟨(Ch.inv_zero h).2.2, ?_⟩
  exact Relation.ReflTransGen.head (Mx.Step.cAcq _ rfl rfl)
    (Relation.ReflTransGen.head (Mx.Step.dWait _ rfl rfl)
      (Relation.ReflTransGen.head (Mx.Step.dClose _ rfl)
        (Relation.ReflTransGen.head (Mx.Step.cExit _ rfl rfl rfl)
          (Relation.ReflTransGen.head (Mx.Step.cPub _ rfl)
            (Relation.ReflTransGen.head (Mx.Step.cUnl _ rfl)
              (Relation.ReflTransGen.head (Mx.Step.dAcq _ rfl rfl)
                (Relation.ReflTransGen.head (Mx.Step.dSel _ rfl)
                  Relation.ReflTransGen.refl)))))))

theorem c4_zero_matches_channel_variant_stuck_witness :
    (Ch.init []).dpc ≠ Ch.DPc.finished ∧
    Mx.Reach []
      ⟨.finished, .finished, [], [], true, .drv, none, some none, true⟩ :=
  c4_zero_matches_channel_variant_stuck (Ch.init [])
    Relation.ReflTransGen.refl

namespace ErrScan

/-- State of the scan over a directory of `n` files that are all
unreadable.  `unstarted` counts file tasks that have not yet attempted
their read; `blocked` counts tasks stuck in check's `errors <- e` — no
goroutine in either variant ever receives from the errors channel, so
there is no transition out of that state; `rootDone` is the root
parseDir's deferred wg.Done; `passedWait` records whether the driver got
past wg.Wait. -/
structure Cfg where
  unstarted : Nat
  blocked : Nat
  rootDone : Bool
  passedWait : Bool

/-- Outstanding count of the WaitGroup: each file was registered
(wg.Add(1)) by the root directory task before being spawned, plus one for
the root task itself until its deferred Done runs. -/
def wgCount (s : Cfg) : Nat :=
  s.unstarted + s.blocked + (if s.rootDone then 0 else 1)

/-- Small-step semantics: the root returns (its listing succeeded), a
file task attempts its read, fails, and blocks in check, or the driver
passes wg.Wait when the count is zero.  A blocked task has no step: its
deferred wg.Done never executes. -/
inductive Step : Cfg → Cfg → Prop
  | rootReturns (s : Cfg) (h : s.rootDone = false) :
      Step s {s with rootDone := true}
  | fileReadFails (s : Cfg) (k : Nat) (h : s.unstarted = k + 1) :
      Step s {s with unstarted := k, blocked := s.blocked + 1}
  | waitReturns (s : Cfg) (h : wgCount s = 0) :
      Step s {s with passedWait := true}

/-- Initial state: root listed, n unreadable files registered and spawned. -/
def init (n : Nat) : Cfg := ⟨n, 0, false, false⟩

/-- Reachability from the initial state. -/
def Reach (n : Nat) (s : Cfg) : Prop := Relation.ReflTransGen Step (init n) s

theorem scan_inv {n : Nat} {s : Cfg} (h : Reach n s) :
    s.unstarted + s.blocked = n ∧ (1 ≤ n → s.passedWait = false) := by
  induction h with
  | refl => exact ⟨by simp [init], fun _ => rfl⟩
  | tail _ hstep ih =>
    obtain ⟨hsum, hpw⟩ := ih
    cases hstep with
    | rootReturns h => exact ⟨hsum, hpw⟩
    | fileReadFails k h =>
      refine ⟨?_, hpw⟩
      simp only []
      omega
    | waitReturns h =>
      refine ⟨hsum, fun hn => ?_⟩
      exfalso
      unfold wgCount at h
      cases hrd : s.rootDone <;> simp [hrd] at h <;> omega

end ErrScan

/-- C3 (code bug): in a tree whose files are all unreadable (n of them,
n at least 1), every file task fails its read and blocks forever in
check's send on the readerless errors channel, so the WaitGroup count
never reaches zero and the driver never passes wg.Wait: the program does
not terminate and prints nothing, contradicting the no-hang property. -/
theorem c3_unreadable_tree_scan_hangs (n : Nat) (s : ErrScan.Cfg)
    (hn : 1 ≤ n) (h : ErrScan.Reach n s) : s.passedWait = false :=
  (ErrScan.scan_inv h).2 hn

theorem c3_unreadable_tree_scan_hangs_witness :
    1 ≤ 1 ∧ (ErrScan.init 1).passedWait = false :=
  ⟨by decide,
    c3_unreadable_tree_scan_hangs 1 (ErrScan.init 1) (by decide)
      Relation.ReflTransGen.refl⟩

/-- C9 (code bug): on the failing-read path a task never signals
completion: in every reachable state all n registered file units are
still unstarted or blocked — the number of completion signals from file
tasks is zero, not one per task — and the outstanding WaitGroup count
stays at least n forever. -/
theorem c9_error_path_never_signals (n : Nat) (s : ErrScan.Cfg)
    (h : ErrScan.Reach n s) :
    s.unstarted + s.blocked = n ∧ n ≤ ErrScan.wgCount s := by
  refine ⟨(ErrScan.scan_inv h).1, ?_⟩
  have hsum := (ErrScan.scan_inv h).1
  unfold ErrScan.wgCount
  cases hrd : s.rootDone <;> simp [hrd] <;> omega

theorem c9_error_path_never_signals_witness :
    (ErrScan.init 1).unstarted + (ErrScan.init 1).blocked = 1 ∧
    1 ≤ ErrScan.wgCount (ErrScan.init 1) :=
  c9_error_path_never_signals 1 (ErrScan.init 1) Relation.ReflTransGen.refl

mutual
/-- A filesystem tree.  For a file, `readable` says whether os.ReadFile
succeeds; for a directory, `listable` says whether os.ReadDir succeeds. -/
inductive FsTree
  | file (readable : Bool)
  | dir (listable : Bool) (entries : FsForest)

/-- Sibling entries of a directory. -/
inductive FsForest
  | nil
  | cons (t : FsTree) (ts : FsForest)
end

mutual
/-- Number of filesystem entries (files plus directories) in the tree. -/
def totalEntries : FsTree → Nat
  | .file _ => 1
  | .dir _ es => 1 + totalEntriesF es

def totalEntriesF : FsForest → Nat
  | .nil => 0
  | .cons t ts => totalEntries t + totalEntriesF ts
end

mutual
/-- wg.Add(1) calls attributable to the subtree rooted here: one for the
node itself (performed by its parent's loop, or by main for the root)
plus, when the directory's listing succeeds, one per entry, recursively.
A directory whose ReadDir fails blocks in check before its loop runs, so
its descendants are never registered. -/
def registered : FsTree → Nat
  | .file _ => 1
  | .dir false _ => 1
  | .dir true es => 1 + registeredF es

def registeredF : FsForest → Nat
  | .nil => 0
  | .cons t ts => registered t + registeredF ts
end

mutual
/-- wg.Done signals eventually executed in the subtree: a failing read or
listing blocks forever in check's send on the readerless errors channel,
so the deferred wg.Done never runs on those nodes, and descendants of an
unlistable directory never run at all. -/
def completions : FsTree → Nat
  | .file true => 1
  | .file false => 0
  | .dir false _ => 0
  | .dir true es => 1 + completionsF es

def completionsF : FsForest → Nat
  | .nil => 0
  | .cons t ts => completions t + completionsF ts
end

mutual
/-- Every file readable and every directory listable. -/
def allReadable : FsTree → Bool
  | .file r => r
  | .dir l es => l && allReadableF es

def allReadableF : FsForest → Bool
  | .nil => true
  | .cons t ts => allReadable t && allReadableF ts
end

mutual
theorem fanin_tree : ∀ (t : FsTree), allReadable t = true →
    registered t = totalEntries t ∧ completions t = totalEntries t
  | .file true, _ => ⟨rfl, rfl⟩
  | .file false, h => (nomatch h)
  | .dir false _, h => (nomatch h)
  | .dir true es, h => by
    have hes : allReadableF es = true := by simpa [allReadable] using h
    have ih := fanin_forest es hes
    constructor
    · show 1 + registeredF es = 1 + totalEntriesF es
      rw [ih.1]
    · show 1 + completionsF es = 1 + totalEntriesF es
      rw [ih.2]

theorem fanin_forest : ∀ (ts : FsForest), allReadableF ts = true →
    registeredF ts = totalEntriesF ts ∧ completionsF ts = totalEntriesF ts
  | .nil, _ => ⟨rfl, rfl⟩
  | .cons t ts, h => by
    have h2 : allReadable t = true ∧ allReadableF ts = true := by
      simpa [allReadableF, Bool.and_eq_true] using h
    have i1 := fanin_tree t h2.1
    have i2 := fanin_forest ts h2.2
    constructor
    · show registered t + registeredF ts = totalEntries t + totalEntriesF ts
      rw [i1.1, i2.1]
    · show completions t + completionsF ts = totalEntries t + totalEntriesF ts
      rw [i1.2, i2.2]
end

/-- A tree with an unlistable subdirectory holding one file: three
entries, but the file below the failing directory is never registered. -/
def c8BadTree : FsTree :=
  .dir true (.cons (.dir false (.cons (.file true) .nil)) .nil)

/-- A fully readable tree: root directory with one readable file. -/
def c8GoodTree : FsTree := .dir true (.cons (.file true) .nil)

/-- C8 counterexample: the claim quantifies over every tree, but for a
tree containing an unlistable directory only 2 of the 3 entries are ever
registered with the WaitGroup — the units of work registered are not the
total entry count. -/
theorem c8_counterexample_unlistable_dir :
    totalEntries c8BadTree = 3 ∧ registered c8BadTree = 2 ∧
    registered c8BadTree ≠ totalEntries c8BadTree := by
  refine ⟨?_, ?_, ?_⟩
  · simp [c8BadTree, totalEntries, totalEntriesF]
  · simp [c8BadTree, registered, registeredF]
  · simp [c8BadTree, registered, registeredF, totalEntries, totalEntriesF]

/-- C8 amended: for every tree whose directories are all listable and
files all readable, exactly N units of work are registered and exactly N
Done signals are executed, where N is the total entry count — so wg.Wait,
which triggers finalization, returns only once all N registered units
have completed. -/
theorem c8_fanin_readable (t : FsTree) (h : allReadable t = true) :
    registered t = totalEntries t ∧ completions t = totalEntries t :=
  fanin_tree t h

theorem c8_fanin_readable_witness :
    allReadable c8GoodTree = true ∧
    (registered c8GoodTree = totalEntries c8GoodTree ∧
      completions c8GoodTree = totalEntries c8GoodTree) :=
  ⟨by simp [c8GoodTree, allReadable, allReadableF],
    c8_fanin_readable c8GoodTree
      (by simp [c8GoodTree, allReadable, allReadableF])⟩
